import Mathlib

/-!
Shallow embedding of `src/queue_native.go`: a bounded FIFO queue of
integers backed by a fixed-size circular buffer (`NativeIntQ`), with
blocking (`Put`/`Get`) and non-blocking (`TryPut`/`TryGet`) operations,
plus `Len`, `Cap`, `Close`, `String` and the factory `NewNativeQueue`.

Modelling conventions:
* Go `int` fields `head`, `tail`, `length`, `capacity` are modelled as
  `Nat`: in the source they start at `0` and are only ever advanced by
  `+1` followed by `% capacity` (Go `%` of nonnegative operands is
  nonnegative) or, for `length`, incremented/decremented guarded by the
  emptiness check, so they never go negative.  Stored values are `Int`.
* The Go slice `queue []int` is a `List Int`.  `make([]int, size, size)`
  allocates `size` zeroed slots (`List.replicate`).  Element assignment
  `queue[tail] = v` is `List.set` (the structural invariant proves the
  index in bounds); element read `queue[head]` is `List.getD _ _ 0`.
  Since the slice is created with `len = cap = size` and only in-place
  element writes occur, Go `cap(queue)` always equals the list length.
* Go's `%` panics on a zero divisor; `goMod` returns `none` in that
  case, and every operation that reaches the modulo arithmetic is
  therefore `Option`-valued, `none` meaning a runtime panic.
* The mutex serializes operations; in the sequential semantics each
  whole operation is one atomic step.  Condition-variable `Signal`
  calls are recorded in the operation results as booleans so that the
  signalling behaviour is itself observable.  A *blocking* operation
  run single-threadedly either proceeds immediately or blocks forever;
  the sequential runner reports the blocked (or panicked) case as
  `none`.
-/

/-- The queue record of `src/queue_native.go` (fields `mtx`, `putcv`,
`getcv` carry no mathematical state; the `Signal` effects are returned
by the operations instead). -/
structure NativeIntQ where
  queue : List Int
  head : Nat
  tail : Nat
  length : Nat
  capacity : Nat
deriving DecidableEq, Repr

/-- Go's `%` on a by-construction nonnegative dividend: panics (`none`)
when the divisor is `0`, otherwise agrees with `Nat.mod`. -/
def goMod (a b : Nat) : Option Nat :=
  if b = 0 then none else some (a % b)

/-- Result of `TryPut`: the post state, the returned error (`some` the
Go error message, `none` on success), and whether `getcv.Signal()` was
called. -/
structure TryPutResult where
  state : NativeIntQ
  err : Option String
  getSignaled : Bool
deriving DecidableEq, Repr

/-- Result of `TryGet`: post state, returned value, returned error, and
whether `putcv.Signal()` was called. -/
structure TryGetResult where
  state : NativeIntQ
  value : Int
  err : Option String
  putSignaled : Bool
deriving DecidableEq, Repr

/-- `TryPut` (queue_native.go lines 26-48): if `length == capacity`
return the "queue is full" error without touching the state and without
signalling; otherwise write at `tail`, advance `tail` modulo
`capacity`, increment `length`, and signal `getcv`.  `none` is the
panic of `%` by zero (unreachable from valid states). -/
def NativeIntQ.TryPut (nvq : NativeIntQ) (value : Int) : Option TryPutResult :=
  if nvq.length = nvq.capacity then
    some ⟨nvq, some "queue is full", false⟩
  else
    match goMod (nvq.tail + 1) nvq.capacity with
    | none => none
    | some t =>
      some ⟨{ nvq with
              queue := nvq.queue.set nvq.tail value
              tail := t
              length := nvq.length + 1 },
            none, true⟩

/-- `Put` (lines 52-70), sequential semantics: when `length == capacity`
a single-threaded caller waits forever (`none`); otherwise the same
insertion as `TryPut`, signalling `getcv`. -/
def NativeIntQ.Put (nvq : NativeIntQ) (value : Int) : Option NativeIntQ :=
  if nvq.length = nvq.capacity then none
  else
    match goMod (nvq.tail + 1) nvq.capacity with
    | none => none
    | some t =>
      some { nvq with
             queue := nvq.queue.set nvq.tail value
             tail := t
             length := nvq.length + 1 }

/-- `Get` (lines 75-96), sequential semantics: when `length == 0` a
single-threaded caller waits forever (`none`); otherwise read at
`head`, advance `head` modulo `capacity`, decrement `length`, signal
`putcv`, return the value. -/
def NativeIntQ.Get (nvq : NativeIntQ) : Option (NativeIntQ × Int) :=
  if nvq.length = 0 then none
  else
    match goMod (nvq.head + 1) nvq.capacity with
    | none => none
    | some h =>
      some ({ nvq with head := h, length := nvq.length - 1 },
            nvq.queue.getD nvq.head 0)

/-- `TryGet` (lines 99-122): if `length > 0` remove the head element,
else return value `0` with the "queue is empty" error and no mutation.
On *both* paths the source then calls `putcv.Signal()` (line 118), so
`putSignaled` is always `true`. -/
def NativeIntQ.TryGet (nvq : NativeIntQ) : Option TryGetResult :=
  if nvq.length > 0 then
    match goMod (nvq.head + 1) nvq.capacity with
    | none => none
    | some h =>
      some ⟨{ nvq with head := h, length := nvq.length - 1 },
            nvq.queue.getD nvq.head 0, none, true⟩
  else
    some ⟨nvq, 0, some "queue is empty", true⟩

/-- `Len` (lines 125-127): the `length` field. -/
def NativeIntQ.Len (nvq : NativeIntQ) : Nat := nvq.length

/-- `Cap` (lines 130-132): Go `cap(nvq.queue)`, which equals the list
length (see the modelling note on slices above). -/
def NativeIntQ.Cap (nvq : NativeIntQ) : Nat := nvq.queue.length

/-- `Close` (lines 135-137): a no-op on the state. -/
def NativeIntQ.Close (nvq : NativeIntQ) : NativeIntQ := nvq

/-- `String` (lines 140-142): `fmt.Sprintf("Native Len:%v Cap:%v", ...)`. -/
def NativeIntQ.String (nvq : NativeIntQ) : String :=
  "Native Len:" ++ toString nvq.Len ++ " Cap:" ++ toString nvq.Cap

/-- The queue state built by `NewNativeQueue` for a nonnegative size:
`size` zeroed slots, counters zeroed, capacity = size. -/
def mkQueue (n : Nat) : NativeIntQ :=
  { queue := List.replicate n 0, head := 0, tail := 0, length := 0, capacity := n }

/-- `NewNativeQueue` (lines 147-161): no validation is performed; for a
negative `size` the call `make([]int, size, size)` panics at runtime
(`none`), for `size ≥ 0` it returns the freshly initialized queue. -/
def NewNativeQueue (size : Int) : Option NativeIntQ :=
  if size < 0 then none else some (mkQueue size.toNat)

/-- A single-threaded client call: blocking or non-blocking
enqueue/dequeue. -/
inductive QOp where
  | put (v : Int)
  | tryPut (v : Int)
  | get
  | tryGet
deriving DecidableEq, Repr

/-- Whether an operation is one of the non-blocking Try variants. -/
def QOp.isTry : QOp → Bool
  | .tryPut _ => true
  | .tryGet => true
  | _ => false

/-- The visible outcome of one operation in a sequential run. -/
inductive QEvent where
  | putOk (v : Int)
  | tryPutOk (v : Int)
  | tryPutFull
  | gotVal (v : Int)
  | tryGotVal (v : Int)
  | tryGotEmpty
deriving DecidableEq, Repr

/-- One sequential step of the native queue.  `none` means the step
does not complete: a blocking call with no counterpart thread, or a
panic of the modulo arithmetic. -/
def stepNative (nvq : NativeIntQ) : QOp → Option (NativeIntQ × QEvent)
  | .put v => (nvq.Put v).map fun q => (q, .putOk v)
  | .tryPut v =>
    (nvq.TryPut v).map fun r =>
      (r.state, if r.err.isSome then .tryPutFull else .tryPutOk v)
  | .get => (nvq.Get).map fun p => (p.1, .gotVal p.2)
  | .tryGet =>
    (nvq.TryGet).map fun r =>
      (r.state, if r.err.isSome then .tryGotEmpty else .tryGotVal r.value)

/-- Run a sequence of operations on the native queue, collecting the
events; `none` as soon as one step fails to complete. -/
def runNative (nvq : NativeIntQ) : List QOp → Option (NativeIntQ × List QEvent)
  | [] => some (nvq, [])
  | op :: ops =>
    (stepNative nvq op).bind fun qe =>
      (runNative qe.1 ops).map fun qes => (qes.1, qe.2 :: qes.2)

/-- Reference model: a plain list holding the queued values, oldest
first, bounded by `cap`. -/
def specStep (cap : Nat) (l : List Int) : QOp → Option (List Int × QEvent)
  | .put v => if l.length = cap then none else some (l ++ [v], .putOk v)
  | .tryPut v =>
    if l.length = cap then some (l, .tryPutFull) else some (l ++ [v], .tryPutOk v)
  | .get =>
    match l with
    | [] => none
    | x :: xs => some (xs, .gotVal x)
  | .tryGet =>
    match l with
    | [] => some (l, .tryGotEmpty)
    | x :: xs => some (xs, .tryGotVal x)

/-- Run a sequence of operations on the reference list FIFO. -/
def runSpec (cap : Nat) (l : List Int) : List QOp → Option (List Int × List QEvent)
  | [] => some (l, [])
  | op :: ops =>
    (specStep cap l op).bind fun le =>
      (runSpec cap le.1 ops).map fun les => (les.1, le.2 :: les.2)

/-- The values successfully enqueued in an event trace, in order. -/
def enqueuedOf : List QEvent → List Int
  | [] => []
  | .putOk v :: es => v :: enqueuedOf es
  | .tryPutOk v :: es => v :: enqueuedOf es
  | _ :: es => enqueuedOf es

/-- The values successfully dequeued in an event trace, in order. -/
def dequeuedOf : List QEvent → List Int
  | [] => []
  | .gotVal v :: es => v :: dequeuedOf es
  | .tryGotVal v :: es => v :: dequeuedOf es
  | _ :: es => dequeuedOf es

/-- Abstraction: the logical contents of the circular buffer, oldest
first — `length` values starting at `head`, indices wrapping modulo
`capacity`. -/
def absQ (nvq : NativeIntQ) : List Int :=
  (List.range nvq.length).map fun i =>
    nvq.queue.getD ((nvq.head + i) % nvq.capacity) 0

/-- The structural invariant of `NativeIntQ` (spec §3): the length is
bounded by the capacity, `head` and `tail` lie in `[0, capacity)`,
`tail = (head + length) mod capacity`, and the buffer has exactly
`capacity` slots. -/
def QInv (nvq : NativeIntQ) : Prop :=
  nvq.length ≤ nvq.capacity ∧
  nvq.head < nvq.capacity ∧
  nvq.tail < nvq.capacity ∧
  nvq.tail = (nvq.head + nvq.length) % nvq.capacity ∧
  nvq.queue.length = nvq.capacity

instance (nvq : NativeIntQ) : Decidable (QInv nvq) := by
  unfold QInv; infer_instance

lemma absQ_length (nvq : NativeIntQ) : (absQ nvq).length = nvq.length := by
  simp [absQ]

lemma QInv.cap_pos {nvq : NativeIntQ} (h : QInv nvq) : 0 < nvq.capacity :=
  Nat.lt_of_le_of_lt (Nat.zero_le _) h.2.1

lemma QInv.mk0 {n : Nat} (hn : 0 < n) : QInv (mkQueue n) := by
  refine ⟨Nat.zero_le n, hn, hn, ?_, ?_⟩ <;> simp [mkQueue]

/-- Indexing into the circular buffer is injective on offsets below the
capacity. -/
lemma circ_index_inj {c a i j : Nat} (hi : i < c) (hj : j < c)
    (h : (a + i) % c = (a + j) % c) : i = j := by
  have h1 : Nat.ModEq c (a + i) (a + j) := h
  have h2 : Nat.ModEq c i j := Nat.ModEq.add_left_cancel' a h1
  have h3 : i % c = j % c := h2
  rwa [Nat.mod_eq_of_lt hi, Nat.mod_eq_of_lt hj] at h3

/-- The state after the insertion lines shared by `TryPut` and `Put`. -/
def enqState (nvq : NativeIntQ) (value : Int) : NativeIntQ :=
  { nvq with
    queue := nvq.queue.set nvq.tail value
    tail := (nvq.tail + 1) % nvq.capacity
    length := nvq.length + 1 }

/-- The state after the removal lines shared by `Get` and `TryGet`. -/
def deqState (nvq : NativeIntQ) : NativeIntQ :=
  { nvq with
    head := (nvq.head + 1) % nvq.capacity
    length := nvq.length - 1 }

lemma tryPut_eq_full {nvq : NativeIntQ} (v : Int) (h : nvq.length = nvq.capacity) :
    nvq.TryPut v = some ⟨nvq, some "queue is full", false⟩ := by
  simp [NativeIntQ.TryPut, h]

lemma tryPut_eq_ok {nvq : NativeIntQ} (v : Int) (h : nvq.length ≠ nvq.capacity)
    (hc : nvq.capacity ≠ 0) :
    nvq.TryPut v = some ⟨enqState nvq v, none, true⟩ := by
  simp [NativeIntQ.TryPut, h, goMod, hc, enqState]

lemma put_eq_blocked {nvq : NativeIntQ} (v : Int) (h : nvq.length = nvq.capacity) :
    nvq.Put v = none := by
  simp [NativeIntQ.Put, h]

lemma put_eq_ok {nvq : NativeIntQ} (v : Int) (h : nvq.length ≠ nvq.capacity)
    (hc : nvq.capacity ≠ 0) :
    nvq.Put v = some (enqState nvq v) := by
  simp [NativeIntQ.Put, h, goMod, hc, enqState]

lemma get_eq_blocked {nvq : NativeIntQ} (h : nvq.length = 0) : nvq.Get = none := by
  simp [NativeIntQ.Get, h]

lemma get_eq_ok {nvq : NativeIntQ} (h : nvq.length ≠ 0) (hc : nvq.capacity ≠ 0) :
    nvq.Get = some (deqState nvq, nvq.queue.getD nvq.head 0) := by
  simp [NativeIntQ.Get, h, goMod, hc, deqState]

lemma tryGet_eq_empty {nvq : NativeIntQ} (h : nvq.length = 0) :
    nvq.TryGet = some ⟨nvq, 0, some "queue is empty", true⟩ := by
  simp [NativeIntQ.TryGet, h]

lemma tryGet_eq_ok {nvq : NativeIntQ} (h : nvq.length ≠ 0) (hc : nvq.capacity ≠ 0) :
    nvq.TryGet = some ⟨deqState nvq, nvq.queue.getD nvq.head 0, none, true⟩ := by
  simp [NativeIntQ.TryGet, Nat.pos_of_ne_zero h, goMod, hc, deqState]

lemma qinv_enqState {nvq : NativeIntQ} (v : Int) (h : QInv nvq)
    (hlt : nvq.length < nvq.capacity) : QInv (enqState nvq v) := by
  obtain ⟨hlen, hhd, htl, heq, hbuf⟩ := h
  refine ⟨hlt, hhd, ?_, ?_, ?_⟩
  · exact Nat.mod_lt _ (Nat.lt_of_le_of_lt (Nat.zero_le _) hhd)
  · show (nvq.tail + 1) % nvq.capacity = (nvq.head + (nvq.length + 1)) % nvq.capacity
    rw [heq, Nat.mod_add_mod, Nat.add_assoc]
  · simpa [enqState] using hbuf

lemma qinv_deqState {nvq : NativeIntQ} (h : QInv nvq)
    (hpos : 0 < nvq.length) : QInv (deqState nvq) := by
  obtain ⟨hlen, hhd, htl, heq, hbuf⟩ := h
  refine ⟨Nat.le_trans (Nat.sub_le _ _) hlen, ?_, htl, ?_, hbuf⟩
  · exact Nat.mod_lt _ (Nat.lt_of_le_of_lt (Nat.zero_le _) hhd)
  · show nvq.tail = ((nvq.head + 1) % nvq.capacity + (nvq.length - 1)) % nvq.capacity
    rw [Nat.mod_add_mod, heq]
    congr 1
    omega

lemma absQ_enqState {nvq : NativeIntQ} (v : Int) (h : QInv nvq)
    (hlt : nvq.length < nvq.capacity) :
    absQ (enqState nvq v) = absQ nvq ++ [v] := by
  obtain ⟨hlen, hhd, htl, heq, hbuf⟩ := h
  show (List.range (nvq.length + 1)).map _ = _
  rw [List.range_succ, List.map_append]
  congr 1
  · apply List.map_congr_left
    intro i hi
    rw [List.mem_range] at hi
    show (nvq.queue.set nvq.tail v).getD ((nvq.head + i) % nvq.capacity) 0 = _
    have hne : (nvq.head + i) % nvq.capacity ≠ nvq.tail := by
      rw [heq]
      intro hcontra
      exact absurd (circ_index_inj (Nat.lt_of_lt_of_le hi hlen) hlt hcontra)
        (Nat.ne_of_lt hi)
    simp [absQ, List.getD_eq_getD_get?, List.get?_eq_getElem?,
      List.getElem?_set_ne (Ne.symm hne)]
  · show [(nvq.queue.set nvq.tail v).getD ((nvq.head + nvq.length) % nvq.capacity) 0] = [v]
    rw [← heq]
    have : nvq.tail < nvq.queue.length := hbuf ▸ htl
    simp [List.getD_eq_getD_get?, List.get?_eq_getElem?,
      List.getElem?_set_eq_of_lt _ this]

lemma absQ_nil_of_empty {nvq : NativeIntQ} (h : nvq.length = 0) : absQ nvq = [] := by
  have := absQ_length nvq
  rw [h] at this
  exact List.eq_nil_of_length_eq_zero this

lemma absQ_deqState {nvq : NativeIntQ} (h : QInv nvq) (hpos : 0 < nvq.length) :
    absQ nvq = nvq.queue.getD nvq.head 0 :: absQ (deqState nvq) := by
  obtain ⟨hlen, hhd, htl, heq, hbuf⟩ := h
  obtain ⟨len', hlen'⟩ : ∃ m, nvq.length = m + 1 :=
    ⟨nvq.length - 1, (Nat.succ_pred_eq_of_pos hpos).symm⟩
  show (List.range nvq.length).map _ = _
  rw [hlen', List.range_succ_eq_map, List.map_cons, List.map_map]
  congr 1
  · simp [Nat.mod_eq_of_lt hhd]
  · show _ = (List.range (deqState nvq).length).map _
    have : (deqState nvq).length = len' := by simp [deqState, hlen']
    rw [this]
    apply List.map_congr_left
    intro i _
    show nvq.queue.getD ((nvq.head + Nat.succ i) % nvq.capacity) 0
      = nvq.queue.getD (((nvq.head + 1) % nvq.capacity + i) % nvq.capacity) 0
    rw [Nat.mod_add_mod]
    congr 2
    omega

/-- One native step simulates one step of the reference list FIFO. -/
lemma stepNative_sim {nvq : NativeIntQ} (h : QInv nvq) (op : QOp) :
    Option.map (fun p => (absQ p.1, p.2)) (stepNative nvq op)
      = specStep nvq.capacity (absQ nvq) op := by
  have hc : nvq.capacity ≠ 0 := h.cap_pos.ne'
  cases op with
  | put v =>
    by_cases hfull : nvq.length = nvq.capacity
    · simp [stepNative, put_eq_blocked v hfull, specStep, absQ_length, hfull]
    · have hlt : nvq.length < nvq.capacity := Nat.lt_of_le_of_ne h.1 hfull
      simp [stepNative, put_eq_ok v hfull hc, specStep, absQ_length, hfull,
        absQ_enqState v h hlt]
  | tryPut v =>
    by_cases hfull : nvq.length = nvq.capacity
    · simp [stepNative, tryPut_eq_full v hfull, specStep, absQ_length, hfull]
    · have hlt : nvq.length < nvq.capacity := Nat.lt_of_le_of_ne h.1 hfull
      simp [stepNative, tryPut_eq_ok v hfull hc, specStep, absQ_length, hfull,
        absQ_enqState v h hlt]
  | get =>
    by_cases hemp : nvq.length = 0
    · simp [stepNative, get_eq_blocked hemp, specStep, absQ_nil_of_empty hemp]
    · have habs := absQ_deqState h (Nat.pos_of_ne_zero hemp)
      simp [stepNative, get_eq_ok hemp hc, specStep, habs]
  | tryGet =>
    by_cases hemp : nvq.length = 0
    · simp [stepNative, tryGet_eq_empty hemp, specStep, absQ_nil_of_empty hemp]
    · have habs := absQ_deqState h (Nat.pos_of_ne_zero hemp)
      simp [stepNative, tryGet_eq_ok hemp hc, specStep, habs]

/-- A completed native step preserves the structural invariant, the
capacity, and the buffer allocation size. -/
lemma stepNative_pres {nvq : NativeIntQ} (h : QInv nvq) (op : QOp)
    (q : NativeIntQ) (e : QEvent) (hstep : stepNative nvq op = some (q, e)) :
    QInv q ∧ q.capacity = nvq.capacity ∧ q.queue.length = nvq.queue.length := by
  have hc : nvq.capacity ≠ 0 := h.cap_pos.ne'
  cases op with
  | put v =>
    by_cases hfull : nvq.length = nvq.capacity
    · simp [stepNative, put_eq_blocked v hfull] at hstep
    · have hlt : nvq.length < nvq.capacity := Nat.lt_of_le_of_ne h.1 hfull
      rw [stepNative, put_eq_ok v hfull hc, Option.map_some'] at hstep
      obtain ⟨hq, -⟩ := Prod.mk.injEq .. ▸ (Option.some.injEq .. ▸ hstep)
      exact hq ▸ ⟨qinv_enqState v h hlt, rfl, by simp [enqState]⟩
  | tryPut v =>
    by_cases hfull : nvq.length = nvq.capacity
    · rw [stepNative, tryPut_eq_full v hfull, Option.map_some'] at hstep
      obtain ⟨hq, -⟩ := Prod.mk.injEq .. ▸ (Option.some.injEq .. ▸ hstep)
      exact hq ▸ ⟨h, rfl, rfl⟩
    · have hlt : nvq.length < nvq.capacity := Nat.lt_of_le_of_ne h.1 hfull
      rw [stepNative, tryPut_eq_ok v hfull hc, Option.map_some'] at hstep
      obtain ⟨hq, -⟩ := Prod.mk.injEq .. ▸ (Option.some.injEq .. ▸ hstep)
      exact hq ▸ ⟨qinv_enqState v h hlt, rfl, by simp [enqState]⟩
  | get =>
    by_cases hemp : nvq.length = 0
    · simp [stepNative, get_eq_blocked hemp] at hstep
    · rw [stepNative, get_eq_ok hemp hc, Option.map_some'] at hstep
      obtain ⟨hq, -⟩ := Prod.mk.injEq .. ▸ (Option.some.injEq .. ▸ hstep)
      exact hq ▸ ⟨qinv_deqState h (Nat.pos_of_ne_zero hemp), rfl, rfl⟩
  | tryGet =>
    by_cases hemp : nvq.length = 0
    · rw [stepNative, tryGet_eq_empty hemp, Option.map_some'] at hstep
      obtain ⟨hq, -⟩ := Prod.mk.injEq .. ▸ (Option.some.injEq .. ▸ hstep)
      exact hq ▸ ⟨h, rfl, rfl⟩
    · rw [stepNative, tryGet_eq_ok hemp hc, Option.map_some'] at hstep
      obtain ⟨hq, -⟩ := Prod.mk.injEq .. ▸ (Option.some.injEq .. ▸ hstep)
      exact hq ▸ ⟨qinv_deqState h (Nat.pos_of_ne_zero hemp), rfl, rfl⟩

/-- A whole sequential run of the native queue simulates the reference
list FIFO step by step, and every completed run preserves the
structural invariant, the capacity field, and the buffer size. -/
lemma runNative_sim {nvq : NativeIntQ} (h : QInv nvq) (ops : List QOp) :
    Option.map (fun p => (absQ p.1, p.2)) (runNative nvq ops)
      = runSpec nvq.capacity (absQ nvq) ops ∧
    ∀ q ev, runNative nvq ops = some (q, ev) →
      QInv q ∧ q.capacity = nvq.capacity ∧ q.queue.length = nvq.queue.length := by
  induction ops generalizing nvq with
  | nil =>
    refine ⟨by simp [runNative, runSpec], ?_⟩
    intro q ev hrun
    rw [runNative] at hrun
    simp only [Option.some.injEq, Prod.mk.injEq] at hrun
    obtain ⟨hq, -⟩ := hrun
    exact hq ▸ ⟨h, rfl, rfl⟩
  | cons op ops ih =>
    have hsim := stepNative_sim h op
    cases hstep : stepNative nvq op with
    | none =>
      rw [hstep, Option.map_none'] at hsim
      constructor
      · rw [runNative, hstep, runSpec, ← hsim]
        simp
      · intro q ev hrun
        rw [runNative, hstep] at hrun
        simp at hrun
    | some pe =>
      obtain ⟨q, e⟩ := pe
      rw [hstep, Option.map_some'] at hsim
      obtain ⟨hq, hcap, hbuflen⟩ := stepNative_pres h op q e hstep
      obtain ⟨ih1, ih2⟩ := ih hq
      rw [hcap] at ih1
      constructor
      · rw [runNative, hstep, Option.some_bind, runSpec, ← hsim, Option.some_bind]
        rw [← ih1]
        cases hrun : runNative q ops with
        | none => simp [hrun]
        | some qev => obtain ⟨q', es⟩ := qev; simp [hrun]
      · intro qf ev hrun
        rw [runNative, hstep, Option.some_bind] at hrun
        cases hrun2 : runNative q ops with
        | none => rw [hrun2] at hrun; simp at hrun
        | some qev =>
          obtain ⟨q', es⟩ := qev
          rw [hrun2, Option.map_some'] at hrun
          simp only [Option.some.injEq, Prod.mk.injEq] at hrun
          obtain ⟨hqf, -⟩ := hrun
          obtain ⟨hi1, hi2, hi3⟩ := ih2 q' es hrun2
          exact hqf ▸ ⟨hi1, hcap ▸ hi2, hbuflen ▸ hi3⟩

/-- Conservation on the reference FIFO: across any completed run, the
initial contents followed by the enqueued values equal the dequeued
values followed by the final contents. -/
lemma runSpec_conservation (cap : Nat) (l : List Int) (ops : List QOp)
    (l' : List Int) (ev : List QEvent) (h : runSpec cap l ops = some (l', ev)) :
    l ++ enqueuedOf ev = dequeuedOf ev ++ l' := by
  induction ops generalizing l ev with
  | nil =>
    rw [runSpec] at h
    simp only [Option.some.injEq, Prod.mk.injEq] at h
    obtain ⟨h1, h2⟩ := h
    subst h1
    rw [← h2]
    simp [enqueuedOf, dequeuedOf]
  | cons op ops ih =>
    rw [runSpec] at h
    cases hstep : specStep cap l op with
    | none => rw [hstep] at h; simp at h
    | some me =>
      obtain ⟨m, e⟩ := me
      rw [hstep, Option.some_bind] at h
      cases hrun : runSpec cap m ops with
      | none => rw [hrun] at h; simp at h
      | some mes =>
        obtain ⟨l'', es⟩ := mes
        rw [hrun, Option.map_some'] at h
        simp only [Option.some.injEq, Prod.mk.injEq] at h
        obtain ⟨h1, h2⟩ := h
        subst h1
        rw [← h2]
        have hmid := ih m es hrun
        cases op with
        | put v =>
          rw [specStep] at hstep
          by_cases hfull : l.length = cap
          · simp [hfull] at hstep
          · simp only [if_neg hfull, Option.some.injEq, Prod.mk.injEq] at hstep
            obtain ⟨hm, he⟩ := hstep
            subst hm; rw [← he]
            simpa [enqueuedOf, dequeuedOf] using hmid
        | tryPut v =>
          rw [specStep] at hstep
          by_cases hfull : l.length = cap
          · simp only [if_pos hfull, Option.some.injEq, Prod.mk.injEq] at hstep
            obtain ⟨hm, he⟩ := hstep
            subst hm; rw [← he]
            simpa [enqueuedOf, dequeuedOf] using hmid
          · simp only [if_neg hfull, Option.some.injEq, Prod.mk.injEq] at hstep
            obtain ⟨hm, he⟩ := hstep
            subst hm; rw [← he]
            simpa [enqueuedOf, dequeuedOf] using hmid
        | get =>
          cases l with
          | nil => rw [specStep] at hstep; simp at hstep
          | cons x xs =>
            rw [specStep] at hstep
            simp only [Option.some.injEq, Prod.mk.injEq] at hstep
            obtain ⟨hm, he⟩ := hstep
            subst hm; rw [← he]
            simpa [enqueuedOf, dequeuedOf] using hmid
        | tryGet =>
          cases l with
          | nil =>
            rw [specStep] at hstep
            simp only [Option.some.injEq, Prod.mk.injEq] at hstep
            obtain ⟨hm, he⟩ := hstep
            subst hm; rw [← he]
            simpa [enqueuedOf, dequeuedOf] using hmid
          | cons x xs =>
            rw [specStep] at hstep
            simp only [Option.some.injEq, Prod.mk.injEq] at hstep
            obtain ⟨hm, he⟩ := hstep
            subst hm; rw [← he]
            simpa [enqueuedOf, dequeuedOf] using hmid

/-- C1: for every sequential sequence of operations on a `NativeIntQ`
constructed with capacity `n > 0`, the queue behaves exactly like the
reference list-based FIFO of at most `n` elements (`runSpec`): the two
runs produce the same events (hence each successful Get/TryGet returns
the oldest not-yet-removed value inserted by a successful Put/TryPut),
the final buffer abstracts to the reference list, and in every
completed run the sequence of dequeued values is a prefix of the
sequence of enqueued values, in order. -/
theorem fifo_refinement_c1 (n : Int) (hn : 0 < n) (q0 : NativeIntQ)
    (h0 : NewNativeQueue n = some q0) (ops : List QOp) :
    q0.capacity = n.toNat ∧
    Option.map (fun p => (absQ p.1, p.2)) (runNative q0 ops)
      = runSpec q0.capacity [] ops ∧
    ∀ q ev, runNative q0 ops = some (q, ev) →
      dequeuedOf ev = (enqueuedOf ev).take (dequeuedOf ev).length := by
  have hq0 : q0 = mkQueue n.toNat := by
    rw [NewNativeQueue, if_neg (by omega)] at h0
    simp only [Option.some.injEq] at h0
    exact h0.symm
  subst hq0
  have hinv : QInv (mkQueue n.toNat) := QInv.mk0 (by omega)
  have habs : absQ (mkQueue n.toNat) = [] := absQ_nil_of_empty rfl
  obtain ⟨hsim, hpres⟩ := runNative_sim hinv ops
  refine ⟨rfl, by rw [← habs]; exact hsim, ?_⟩
  intro q ev hrun
  have hspec : runSpec (mkQueue n.toNat).capacity [] ops = some (absQ q, ev) := by
    rw [← habs, ← hsim, hrun, Option.map_some']
  have hcons := runSpec_conservation _ _ _ _ _ hspec
  rw [List.nil_append] at hcons
  rw [hcons, List.take_left]

/-- C1 witness: the refinement at capacity 2 and a concrete operation
sequence. -/
theorem fifo_refinement_c1_witness :
    (0 : Int) < 2 ∧ NewNativeQueue 2 = some (mkQueue 2) ∧
    ((mkQueue 2).capacity = (2 : Int).toNat ∧
     Option.map (fun p => (absQ p.1, p.2))
        (runNative (mkQueue 2) [QOp.tryPut 5, QOp.put 7, QOp.get, QOp.tryGet, QOp.tryGet])
      = runSpec (mkQueue 2).capacity [] [QOp.tryPut 5, QOp.put 7, QOp.get, QOp.tryGet, QOp.tryGet] ∧
     ∀ q ev,
       runNative (mkQueue 2) [QOp.tryPut 5, QOp.put 7, QOp.get, QOp.tryGet, QOp.tryGet]
         = some (q, ev) →
       dequeuedOf ev = (enqueuedOf ev).take (dequeuedOf ev).length) :=
  ⟨by decide, by decide,
   fifo_refinement_c1 2 (by decide) (mkQueue 2) (by decide)
     [QOp.tryPut 5, QOp.put 7, QOp.get, QOp.tryGet, QOp.tryGet]⟩

/-- C2: for a queue constructed with capacity `n > 0`, the structural
invariant `QInv` (0 ≤ length ≤ capacity, head and tail in
`[0, capacity)`, `tail = (head + length) % capacity`, buffer of exactly
`capacity` slots) holds initially, is preserved by every completing
operation (TryPut, Put, Get, TryGet, Close — Len, Cap and String do not
touch the state), and consequently `0 ≤ Len() ≤ Cap()` holds at every
state reachable by a sequence of operations from the fresh queue
(`0 ≤` is inherent in the `Nat` embedding of the never-negative Go
counters). -/
theorem invariant_preserved_c2 (n : Int) (hn : 0 < n) (q0 : NativeIntQ)
    (h0 : NewNativeQueue n = some q0) :
    QInv q0 ∧
    (∀ nvq : NativeIntQ, QInv nvq →
      (∀ v r, nvq.TryPut v = some r → QInv r.state) ∧
      (∀ v q, nvq.Put v = some q → QInv q) ∧
      (∀ q v, nvq.Get = some (q, v) → QInv q) ∧
      (∀ r, nvq.TryGet = some r → QInv r.state) ∧
      QInv nvq.Close) ∧
    (∀ ops q ev, runNative q0 ops = some (q, ev) → QInv q ∧ q.Len ≤ q.Cap) := by
  have hq0 : q0 = mkQueue n.toNat := by
    rw [NewNativeQueue, if_neg (by omega)] at h0
    simp only [Option.some.injEq] at h0
    exact h0.symm
  subst hq0
  have hinv : QInv (mkQueue n.toNat) := QInv.mk0 (by omega)
  refine ⟨hinv, ?_, ?_⟩
  · intro nvq h
    have hc : nvq.capacity ≠ 0 := h.cap_pos.ne'
    refine ⟨?_, ?_, ?_, ?_, h⟩
    · intro v r hr
      by_cases hfull : nvq.length = nvq.capacity
      · rw [tryPut_eq_full v hfull] at hr
        simp only [Option.some.injEq] at hr
        subst hr
        exact h
      · rw [tryPut_eq_ok v hfull hc] at hr
        simp only [Option.some.injEq] at hr
        subst hr
        exact qinv_enqState v h (Nat.lt_of_le_of_ne h.1 hfull)
    · intro v q hq
      by_cases hfull : nvq.length = nvq.capacity
      · rw [put_eq_blocked v hfull] at hq
        exact absurd hq (by simp)
      · rw [put_eq_ok v hfull hc] at hq
        simp only [Option.some.injEq] at hq
        subst hq
        exact qinv_enqState v h (Nat.lt_of_le_of_ne h.1 hfull)
    · intro q v hq
      by_cases hemp : nvq.length = 0
      · rw [get_eq_blocked hemp] at hq
        exact absurd hq (by simp)
      · rw [get_eq_ok hemp hc] at hq
        simp only [Option.some.injEq, Prod.mk.injEq] at hq
        obtain ⟨hq, -⟩ := hq
        subst hq
        exact qinv_deqState h (Nat.pos_of_ne_zero hemp)
    · intro r hr
      by_cases hemp : nvq.length = 0
      · rw [tryGet_eq_empty hemp] at hr
        simp only [Option.some.injEq] at hr
        subst hr
        exact h
      · rw [tryGet_eq_ok hemp hc] at hr
        simp only [Option.some.injEq] at hr
        subst hr
        exact qinv_deqState h (Nat.pos_of_ne_zero hemp)
  · intro ops q ev hrun
    obtain ⟨hq, -, -⟩ := (runNative_sim hinv ops).2 q ev hrun
    refine ⟨hq, ?_⟩
    show q.length ≤ q.queue.length
    rw [hq.2.2.2.2]
    exact hq.1

/-- C2 witness: the invariant statement at capacity 1. -/
theorem invariant_preserved_c2_witness :
    (0 : Int) < 1 ∧ NewNativeQueue 1 = some (mkQueue 1) ∧
    (QInv (mkQueue 1) ∧
     (∀ nvq : NativeIntQ, QInv nvq →
       (∀ v r, nvq.TryPut v = some r → QInv r.state) ∧
       (∀ v q, nvq.Put v = some q → QInv q) ∧
       (∀ q v, nvq.Get = some (q, v) → QInv q) ∧
       (∀ r, nvq.TryGet = some r → QInv r.state) ∧
       QInv nvq.Close) ∧
     (∀ ops q ev, runNative (mkQueue 1) ops = some (q, ev) → QInv q ∧ q.Len ≤ q.Cap)) :=
  ⟨by decide, by decide, invariant_preserved_c2 1 (by decide) (mkQueue 1) (by decide)⟩

/-- C3: `TryPut` on a full queue (`length = capacity`) reports the
queue-full error and leaves buffer, head, tail and length unchanged
(the whole state is returned untouched, so `Len()` is unchanged); on a
non-full queue it writes the value at `buffer[tail]`, advances `tail`
modulo the capacity, increments `length`, and reports success. -/
theorem tryPut_contract_c3 (nvq : NativeIntQ) (v : Int) :
    (nvq.length = nvq.capacity →
      nvq.TryPut v = some ⟨nvq, some "queue is full", false⟩) ∧
    (nvq.length < nvq.capacity →
      nvq.TryPut v = some ⟨{ nvq with
          queue := nvq.queue.set nvq.tail v
          tail := (nvq.tail + 1) % nvq.capacity
          length := nvq.length + 1 }, none, true⟩) :=
  ⟨fun h => tryPut_eq_full v h,
   fun h => tryPut_eq_ok v (Nat.ne_of_lt h) (by omega)⟩

/-- C3 witness: both branches at concrete queues of capacity 1. -/
theorem tryPut_contract_c3_witness :
    (mkQueue 1).TryPut 9 = some ⟨{ mkQueue 1 with
        queue := (mkQueue 1).queue.set (mkQueue 1).tail 9
        tail := ((mkQueue 1).tail + 1) % (mkQueue 1).capacity
        length := (mkQueue 1).length + 1 }, none, true⟩ ∧
    (NativeIntQ.mk [9] 0 0 1 1).TryPut 3
      = some ⟨NativeIntQ.mk [9] 0 0 1 1, some "queue is full", false⟩ :=
  ⟨(tryPut_contract_c3 (mkQueue 1) 9).2 (by decide),
   (tryPut_contract_c3 (NativeIntQ.mk [9] 0 0 1 1) 3).1 (by decide)⟩

/-- C4 counterexample: the claim asserts that `TryGet` on an empty
queue issues no signal, but the source calls `putcv.Signal()`
unconditionally (queue_native.go line 118), also on the empty path:
on the fresh capacity-1 queue the recorded signal flag is `true`, not
`false`. -/
theorem tryGet_c4_counterexample :
    (mkQueue 1).length = 0 ∧
    ((mkQueue 1).TryGet).map (fun r => r.putSignaled) = some true ∧
    ¬ ((mkQueue 1).TryGet).map (fun r => r.putSignaled) = some false := by
  refine ⟨rfl, rfl, ?_⟩
  intro h
  simp [tryGet_eq_empty (rfl : (mkQueue 1).length = 0)] at h

/-- C4 amended: on every state with `length = 0`, `TryGet` reports the
queue-empty condition synchronously with no mutation of buffer, head,
tail or length (so `Len()` is unchanged) and returns value 0, and on
any state `TryGet` reports an error if and only if the queue is empty
at the time of the call; however, contrary to the original claim, the
space-available condition (`putcv`) *is* signaled, on the empty path as
well as the success path. -/
theorem tryGet_empty_c4_amended (nvq : NativeIntQ) :
    (nvq.length = 0 →
      nvq.TryGet = some ⟨nvq, 0, some "queue is empty", true⟩) ∧
    (∀ r, nvq.TryGet = some r → (r.err.isSome ↔ nvq.length = 0) ∧ r.putSignaled = true) := by
  refine ⟨fun h => tryGet_eq_empty h, ?_⟩
  intro r hr
  by_cases hemp : nvq.length = 0
  · rw [tryGet_eq_empty hemp] at hr
    simp only [Option.some.injEq] at hr
    subst hr
    simp [hemp]
  · by_cases hc : nvq.capacity = 0
    · rw [NativeIntQ.TryGet, if_pos (Nat.pos_of_ne_zero hemp)] at hr
      simp [goMod, hc] at hr
    · rw [tryGet_eq_ok hemp hc] at hr
      simp only [Option.some.injEq] at hr
      subst hr
      simp [hemp]

/-- C4 witness: the amended statement applied to the fresh capacity-2
queue. -/
theorem tryGet_empty_c4_witness :
    (mkQueue 2).TryGet = some ⟨mkQueue 2, 0, some "queue is empty", true⟩ ∧
    (((some "queue is empty" : Option String).isSome ↔ (mkQueue 2).length = 0) ∧
      (true : Bool) = true) :=
  ⟨(tryGet_empty_c4_amended (mkQueue 2)).1 rfl,
   (tryGet_empty_c4_amended (mkQueue 2)).2
     ⟨mkQueue 2, 0, some "queue is empty", true⟩
     ((tryGet_empty_c4_amended (mkQueue 2)).1 rfl)⟩

/-- The event every Try-operation produces on the always-full /
always-empty capacity-0 queue. -/
def zeroCapEvent : QOp → QEvent
  | QOp.tryPut _ => QEvent.tryPutFull
  | _ => QEvent.tryGotEmpty

/-- C6: on a queue constructed with capacity 0, every `TryPut` reports
queue-full and every `TryGet` reports queue-empty, immediately and
without reaching the modulo-by-capacity arithmetic — in this embedding
a reached `% 0` is the `none` (panic) outcome of `goMod`, and the
results here are always `some` — and the state stays exactly the fresh
state across every sequence of Try-operations. -/
theorem zero_capacity_c6 (ops : List QOp) (h : ∀ op ∈ ops, op.isTry = true) :
    (∀ v, (mkQueue 0).TryPut v = some ⟨mkQueue 0, some "queue is full", false⟩) ∧
    (mkQueue 0).TryGet = some ⟨mkQueue 0, 0, some "queue is empty", true⟩ ∧
    runNative (mkQueue 0) ops = some (mkQueue 0, ops.map zeroCapEvent) := by
  refine ⟨fun v => tryPut_eq_full v rfl, tryGet_eq_empty rfl, ?_⟩
  induction ops with
  | nil => rfl
  | cons op ops ih =>
    have hop := h op (List.mem_cons_self op ops)
    have hops : ∀ op ∈ ops, op.isTry = true :=
      fun o ho => h o (List.mem_cons_of_mem op ho)
    have hrest := ih hops
    cases op with
    | put v => simp [QOp.isTry] at hop
    | get => simp [QOp.isTry] at hop
    | tryPut v =>
      rw [runNative, stepNative, tryPut_eq_full v rfl]
      simp only [Option.map_some', Option.some_bind, Option.isSome_some, if_pos]
      rw [hrest]
      rfl
    | tryGet =>
      rw [runNative, stepNative, tryGet_eq_empty rfl]
      simp only [Option.map_some', Option.some_bind, Option.isSome_some, if_pos]
      rw [hrest]
      rfl

/-- C6 witness: a concrete sequence of Try-operations on the capacity-0
queue. -/
theorem zero_capacity_c6_witness :
    (∀ v, (mkQueue 0).TryPut v = some ⟨mkQueue 0, some "queue is full", false⟩) ∧
    (mkQueue 0).TryGet = some ⟨mkQueue 0, 0, some "queue is empty", true⟩ ∧
    runNative (mkQueue 0) [QOp.tryPut 7, QOp.tryGet, QOp.tryPut 1]
      = some (mkQueue 0, [QOp.tryPut 7, QOp.tryGet, QOp.tryPut 1].map zeroCapEvent) :=
  zero_capacity_c6 [QOp.tryPut 7, QOp.tryGet, QOp.tryPut 1] (by decide)

/-- C7 counterexample: the claim says every `size ≤ 0` is rejected with
a construction-time error, but `NewNativeQueue 0` performs no
validation and returns a usable queue instance (capacity 0), not an
error. -/
theorem newQueue_c7_counterexample :
    (0 : Int) ≤ 0 ∧ NewNativeQueue 0 = some (mkQueue 0) ∧ NewNativeQueue 0 ≠ none := by
  refine ⟨by decide, by decide, by decide⟩

/-- C7 amended: `NewNativeQueue` performs no validation.  For
`size < 0` construction aborts with a runtime panic inside
`make([]int, size, size)` (not a reported error value); for every
`size ≥ 0` — including 0 — it returns a usable queue instance.  The
only error values the API ever reports are the queue-full error of
`TryPut` and the queue-empty error of `TryGet`. -/
theorem newQueue_c7_amended (size : Int) :
    (size < 0 → NewNativeQueue size = none) ∧
    (0 ≤ size → NewNativeQueue size = some (mkQueue size.toNat)) ∧
    (∀ (nvq : NativeIntQ) (v : Int) (r : TryPutResult), nvq.TryPut v = some r →
      ∀ e, r.err = some e → e = "queue is full") ∧
    (∀ (nvq : NativeIntQ) (r : TryGetResult), nvq.TryGet = some r →
      ∀ e, r.err = some e → e = "queue is empty") := by
  refine ⟨?_, ?_, ?_, ?_⟩
  · intro hneg
    rw [NewNativeQueue, if_pos hneg]
  · intro hpos
    rw [NewNativeQueue, if_neg (by omega)]
  · intro nvq v r hr e he
    by_cases hfull : nvq.length = nvq.capacity
    · rw [tryPut_eq_full v hfull] at hr
      simp only [Option.some.injEq] at hr
      subst hr
      simp only [Option.some.injEq] at he
      exact he.symm
    · by_cases hc : nvq.capacity = 0
      · rw [NativeIntQ.TryPut, if_neg hfull] at hr
        simp [goMod, hc] at hr
      · rw [tryPut_eq_ok v hfull hc] at hr
        simp only [Option.some.injEq] at hr
        subst hr
        simp at he
  · intro nvq r hr e he
    by_cases hemp : nvq.length = 0
    · rw [tryGet_eq_empty hemp] at hr
      simp only [Option.some.injEq] at hr
      subst hr
      simp only [Option.some.injEq] at he
      exact he.symm
    · by_cases hc : nvq.capacity = 0
      · rw [NativeIntQ.TryGet, if_pos (Nat.pos_of_ne_zero hemp)] at hr
        simp [goMod, hc] at hr
      · rw [tryGet_eq_ok hemp hc] at hr
        simp only [Option.some.injEq] at hr
        subst hr
        simp at he

/-- C7 witness: the amended statement at sizes -1 and 3. -/
theorem newQueue_c7_witness :
    NewNativeQueue (-1) = none ∧ NewNativeQueue 3 = some (mkQueue (3 : Int).toNat) :=
  ⟨(newQueue_c7_amended (-1)).1 (by decide),
   (newQueue_c7_amended 3).2.1 (by decide)⟩

/-- `TryPut` never changes the capacity field or the buffer allocation
size, on any state. -/
lemma tryPut_frame {nvq : NativeIntQ} {v : Int} {r : TryPutResult}
    (hr : nvq.TryPut v = some r) :
    r.state.capacity = nvq.capacity ∧ r.state.queue.length = nvq.queue.length := by
  by_cases hfull : nvq.length = nvq.capacity
  · rw [tryPut_eq_full v hfull] at hr
    simp only [Option.some.injEq] at hr
    subst hr
    exact ⟨rfl, rfl⟩
  · by_cases hc : nvq.capacity = 0
    · rw [NativeIntQ.TryPut, if_neg hfull] at hr
      simp [goMod, hc] at hr
    · rw [tryPut_eq_ok v hfull hc] at hr
      simp only [Option.some.injEq] at hr
      subst hr
      exact ⟨rfl, by simp [enqState]⟩

/-- `Put` never changes the capacity field or the buffer allocation
size, on any state. -/
lemma put_frame {nvq : NativeIntQ} {v : Int} {q : NativeIntQ}
    (hq : nvq.Put v = some q) :
    q.capacity = nvq.capacity ∧ q.queue.length = nvq.queue.length := by
  by_cases hfull : nvq.length = nvq.capacity
  · rw [put_eq_blocked v hfull] at hq
    exact absurd hq (by simp)
  · by_cases hc : nvq.capacity = 0
    · rw [NativeIntQ.Put, if_neg hfull] at hq
      simp [goMod, hc] at hq
    · rw [put_eq_ok v hfull hc] at hq
      simp only [Option.some.injEq] at hq
      subst hq
      exact ⟨rfl, by simp [enqState]⟩

/-- `Get` never changes the capacity field or the buffer allocation
size, on any state. -/
lemma get_frame {nvq : NativeIntQ} {q : NativeIntQ} {v : Int}
    (hq : nvq.Get = some (q, v)) :
    q.capacity = nvq.capacity ∧ q.queue.length = nvq.queue.length := by
  by_cases hemp : nvq.length = 0
  · rw [get_eq_blocked hemp] at hq
    exact absurd hq (by simp)
  · by_cases hc : nvq.capacity = 0
    · rw [NativeIntQ.Get, if_neg hemp] at hq
      simp [goMod, hc] at hq
    · rw [get_eq_ok hemp hc] at hq
      simp only [Option.some.injEq, Prod.mk.injEq] at hq
      obtain ⟨hq, -⟩ := hq
      subst hq
      exact ⟨rfl, rfl⟩

/-- `TryGet` never changes the capacity field or the buffer allocation
size, on any state. -/
lemma tryGet_frame {nvq : NativeIntQ} {r : TryGetResult}
    (hr : nvq.TryGet = some r) :
    r.state.capacity = nvq.capacity ∧ r.state.queue.length = nvq.queue.length := by
  by_cases hemp : nvq.length = 0
  · rw [tryGet_eq_empty hemp] at hr
    simp only [Option.some.injEq] at hr
    subst hr
    exact ⟨rfl, rfl⟩
  · by_cases hc : nvq.capacity = 0
    · rw [NativeIntQ.TryGet, if_pos (Nat.pos_of_ne_zero hemp)] at hr
      simp [goMod, hc] at hr
    · rw [tryGet_eq_ok hemp hc] at hr
      simp only [Option.some.injEq] at hr
      subst hr
      exact ⟨rfl, rfl⟩

/-- A completed step never changes the capacity field or the buffer
allocation size, with no assumption on the state. -/
lemma stepNative_frame {nvq : NativeIntQ} {op : QOp} {q : NativeIntQ} {e : QEvent}
    (hstep : stepNative nvq op = some (q, e)) :
    q.capacity = nvq.capacity ∧ q.queue.length = nvq.queue.length := by
  cases op with
  | put v =>
    rw [stepNative] at hstep
    cases hput : nvq.Put v with
    | none => rw [hput] at hstep; simp at hstep
    | some q1 =>
      rw [hput, Option.map_some'] at hstep
      simp only [Option.some.injEq, Prod.mk.injEq] at hstep
      obtain ⟨hq, -⟩ := hstep
      exact hq ▸ put_frame hput
  | tryPut v =>
    rw [stepNative] at hstep
    cases hput : nvq.TryPut v with
    | none => rw [hput] at hstep; simp at hstep
    | some r =>
      rw [hput, Option.map_some'] at hstep
      simp only [Option.some.injEq, Prod.mk.injEq] at hstep
      obtain ⟨hq, -⟩ := hstep
      exact hq ▸ tryPut_frame hput
  | get =>
    rw [stepNative] at hstep
    cases hget : nvq.Get with
    | none => rw [hget] at hstep; simp at hstep
    | some p =>
      obtain ⟨q1, v1⟩ := p
      rw [hget, Option.map_some'] at hstep
      simp only [Option.some.injEq, Prod.mk.injEq] at hstep
      obtain ⟨hq, -⟩ := hstep
      exact hq ▸ get_frame hget
  | tryGet =>
    rw [stepNative] at hstep
    cases hget : nvq.TryGet with
    | none => rw [hget] at hstep; simp at hstep
    | some r =>
      rw [hget, Option.map_some'] at hstep
      simp only [Option.some.injEq, Prod.mk.injEq] at hstep
      obtain ⟨hq, -⟩ := hstep
      exact hq ▸ tryGet_frame hget

/-- A completed run never changes the capacity field or the buffer
allocation size, with no assumption on the initial state. -/
lemma runNative_frame {nvq : NativeIntQ} (ops : List QOp) {q : NativeIntQ}
    {ev : List QEvent} (hrun : runNative nvq ops = some (q, ev)) :
    q.capacity = nvq.capacity ∧ q.queue.length = nvq.queue.length := by
  induction ops generalizing nvq q ev with
  | nil =>
    rw [runNative] at hrun
    simp only [Option.some.injEq, Prod.mk.injEq] at hrun
    obtain ⟨hq, -⟩ := hrun
    exact hq ▸ ⟨rfl, rfl⟩
  | cons op ops ih =>
    rw [runNative] at hrun
    cases hstep : stepNative nvq op with
    | none => rw [hstep] at hrun; simp at hrun
    | some qe =>
      obtain ⟨q1, e⟩ := qe
      rw [hstep, Option.some_bind] at hrun
      cases hrun2 : runNative q1 ops with
      | none => rw [hrun2] at hrun; simp at hrun
      | some qes =>
        obtain ⟨q2, es⟩ := qes
        rw [hrun2, Option.map_some'] at hrun
        simp only [Option.some.injEq, Prod.mk.injEq] at hrun
        obtain ⟨hq, -⟩ := hrun
        obtain ⟨h1, h2⟩ := stepNative_frame hstep
        obtain ⟨h3, h4⟩ := ih hrun2
        exact hq ▸ ⟨h3.trans h1, h4.trans h2⟩

/-- C8: `Cap()` always returns the capacity fixed at construction: for
every queue built by `NewNativeQueue n` with `n ≥ 0`, `Cap()` is `n`,
no individual operation (TryPut, Put, Get, TryGet — Len, Cap, Close,
String never touch the state) changes the capacity field or the
buffer's allocated size, and after every completed sequence of
operations `Cap()` still returns `n`. -/
theorem cap_immutable_c8 (n : Int) (hn : 0 ≤ n) (q0 : NativeIntQ)
    (h0 : NewNativeQueue n = some q0) :
    q0.Cap = n.toNat ∧
    (∀ (nvq : NativeIntQ) (v : Int) (r : TryPutResult), nvq.TryPut v = some r →
      r.state.Cap = nvq.Cap ∧ r.state.capacity = nvq.capacity) ∧
    (∀ (nvq q : NativeIntQ) (v : Int), nvq.Put v = some q →
      q.Cap = nvq.Cap ∧ q.capacity = nvq.capacity) ∧
    (∀ (nvq q : NativeIntQ) (v : Int), nvq.Get = some (q, v) →
      q.Cap = nvq.Cap ∧ q.capacity = nvq.capacity) ∧
    (∀ (nvq : NativeIntQ) (r : TryGetResult), nvq.TryGet = some r →
      r.state.Cap = nvq.Cap ∧ r.state.capacity = nvq.capacity) ∧
    (∀ ops q ev, runNative q0 ops = some (q, ev) → q.Cap = n.toNat) := by
  have hq0 : q0 = mkQueue n.toNat := by
    rw [NewNativeQueue, if_neg (by omega)] at h0
    simp only [Option.some.injEq] at h0
    exact h0.symm
  subst hq0
  have hcap0 : (mkQueue n.toNat).Cap = n.toNat := by
    simp [mkQueue, NativeIntQ.Cap]
  refine ⟨hcap0, ?_, ?_, ?_, ?_, ?_⟩
  · intro nvq v r hr
    exact ⟨(tryPut_frame hr).2, (tryPut_frame hr).1⟩
  · intro nvq q v hq
    exact ⟨(put_frame hq).2, (put_frame hq).1⟩
  · intro nvq q v hq
    exact ⟨(get_frame hq).2, (get_frame hq).1⟩
  · intro nvq r hr
    exact ⟨(tryGet_frame hr).2, (tryGet_frame hr).1⟩
  · intro ops q ev hrun
    show q.queue.length = n.toNat
    rw [(runNative_frame ops hrun).2]
    exact hcap0

/-- C8 witness: capacity immutability at size 2 with a concrete run. -/
theorem cap_immutable_c8_witness :
    (0 : Int) ≤ 2 ∧ NewNativeQueue 2 = some (mkQueue 2) ∧
    ((mkQueue 2).Cap = (2 : Int).toNat ∧
     (∀ (nvq : NativeIntQ) (v : Int) (r : TryPutResult), nvq.TryPut v = some r →
       r.state.Cap = nvq.Cap ∧ r.state.capacity = nvq.capacity) ∧
     (∀ (nvq q : NativeIntQ) (v : Int), nvq.Put v = some q →
       q.Cap = nvq.Cap ∧ q.capacity = nvq.capacity) ∧
     (∀ (nvq q : NativeIntQ) (v : Int), nvq.Get = some (q, v) →
       q.Cap = nvq.Cap ∧ q.capacity = nvq.capacity) ∧
     (∀ (nvq : NativeIntQ) (r : TryGetResult), nvq.TryGet = some r →
       r.state.Cap = nvq.Cap ∧ r.state.capacity = nvq.capacity) ∧
     (∀ ops q ev, runNative (mkQueue 2) ops = some (q, ev) → q.Cap = (2 : Int).toNat)) :=
  ⟨by decide, by decide, cap_immutable_c8 2 (by decide) (mkQueue 2) (by decide)⟩

/-- C9: whenever `TryGet` is called on an empty queue (`length = 0`),
the value it returns alongside the queue-empty error is exactly the
integer 0. -/
theorem tryGet_zero_value_c9 (nvq : NativeIntQ) (h : nvq.length = 0) :
    ((nvq.TryGet).map fun r => (r.value, r.err.isSome)) = some (0, true) := by
  rw [tryGet_eq_empty h]
  rfl

/-- C9 witness: the fresh capacity-3 queue. -/
theorem tryGet_zero_value_c9_witness :
    (mkQueue 3).length = 0 ∧
    (((mkQueue 3).TryGet).map fun r => (r.value, r.err.isSome)) = some (0, true) :=
  ⟨rfl, tryGet_zero_value_c9 (mkQueue 3) rfl⟩

/-- C10 counterexample: the claim says the diagnostic string is exactly
"Len:<n> Cap:<m>", but `String()` formats with the prefix "Native ":
on the fresh capacity-1 queue the result is "Native Len:0 Cap:1", not
"Len:0 Cap:1". -/
theorem string_c10_counterexample :
    (mkQueue 1).String = "Native Len:0 Cap:1" ∧
    (mkQueue 1).String ≠ "Len:" ++ toString (mkQueue 1).Len ++ " Cap:" ++ toString (mkQueue 1).Cap := by
  refine ⟨by decide, by decide⟩

/-- C10 amended: for every queue state, `String()` returns exactly
"Native Len:<n> Cap:<m>" where `n` is the current `Len()` (the `length`
field) and `m` is `Cap()` (the allocated buffer size). -/
theorem string_c10_amended (nvq : NativeIntQ) :
    nvq.String = "Native Len:" ++ toString nvq.length ++ " Cap:" ++ toString nvq.queue.length := by
  rfl

/-- Consumer thread status in the blocked-Get scenario of C5: ready to
enter (or re-enter) Get's critical section, suspended on `getcv`, or
returned from Get with a value. -/
inductive CStat where
  | running
  | waiting
  | finished (v : Int)
deriving DecidableEq, Repr

/-- Producer thread status in the blocked-Get scenario: ready to enter
(or re-enter) Put's critical section, suspended on `putcv`, or returned
from Put. -/
inductive PStat where
  | running
  | waiting
  | finished
deriving DecidableEq, Repr

/-- Global state of the two-thread scenario: one consumer running
`Get()`, one producer running `Put 42`, sharing one queue.  The mutex
makes each lock-protected region atomic, so it carries no explicit
state: a thread step is one whole critical section (from acquiring the
lock to releasing it at a `Wait` or at the function exit). -/
structure BlockingState where
  q : NativeIntQ
  cons : CStat
  prod : PStat
deriving DecidableEq, Repr

/-- Interleaved small-step semantics of the scenario.  `Wait` atomically
releases the lock and suspends (status `waiting`); `Signal` wakes the
suspended counterpart, if any, making it re-enter the `while` re-check
(status `running`).  The two spurious-wakeup steps model wakeups not
caused by a signal; the re-check loop in the source makes them
harmless. -/
inductive BStep : BlockingState → BlockingState → Prop where
  /-- Get, lines 77-84: lock, find `length == 0`, `getcv.Wait()`. -/
  | consWait (s : BlockingState) (h : s.cons = CStat.running)
      (he : s.q.length = 0) :
      BStep s { s with cons := CStat.waiting }
  /-- Get, lines 77-95: lock, find data, remove the head element,
  `putcv.Signal()`, unlock, return the value. -/
  | consTake (s : BlockingState) (h : s.cons = CStat.running)
      (q' : NativeIntQ) (v : Int) (hg : s.q.Get = some (q', v)) :
      BStep s { q := q'
                cons := CStat.finished v
                prod := if s.prod = PStat.waiting then PStat.running else s.prod }
  /-- Put, lines 54-61: lock, find `length == capacity`, `putcv.Wait()`. -/
  | prodWait (s : BlockingState) (h : s.prod = PStat.running)
      (hf : s.q.length = s.q.capacity) :
      BStep s { s with prod := PStat.waiting }
  /-- Put, lines 54-69: lock, find room, insert 42, `getcv.Signal()`,
  unlock, return. -/
  | prodPut (s : BlockingState) (h : s.prod = PStat.running)
      (q' : NativeIntQ) (hp : s.q.Put 42 = some q') :
      BStep s { q := q'
                cons := if s.cons = CStat.waiting then CStat.running else s.cons
                prod := PStat.finished }
  /-- Spurious wakeup of the suspended consumer: it re-enters the
  `for nvq.length == 0` re-check. -/
  | consSpurious (s : BlockingState) (h : s.cons = CStat.waiting) :
      BStep s { s with cons := CStat.running }
  /-- Spurious wakeup of the suspended producer. -/
  | prodSpurious (s : BlockingState) (h : s.prod = PStat.waiting) :
      BStep s { s with prod := PStat.running }

/-- Initial state of the scenario: fresh capacity-1 queue, both threads
about to call their operation. -/
def initBlocking : BlockingState :=
  { q := mkQueue 1, cons := CStat.running, prod := PStat.running }

/-- States reachable in the scenario under any interleaving. -/
inductive BReach : BlockingState → Prop where
  | init : BReach initBlocking
  | step {s t : BlockingState} : BReach s → BStep s t → BReach t

/-- Inductive invariant of the scenario: the queue keeps its capacity-1
shape with both indices pinned at 0, the queue is empty until the
producer has inserted, it holds exactly the value 42 from the insertion
until the consumer removes it, and a finished consumer has taken 42,
emptied the queue, and can only have done so after the producer
finished. -/
def BInv (s : BlockingState) : Prop :=
  s.q.capacity = 1 ∧ s.q.queue.length = 1 ∧ s.q.head = 0 ∧ s.q.tail = 0 ∧
  match s.prod, s.cons with
  | PStat.finished, CStat.finished v => v = 42 ∧ s.q.length = 0
  | PStat.finished, _ => s.q.length = 1 ∧ s.q.queue.getD s.q.head 0 = 42
  | _, CStat.finished _ => False
  | _, _ => s.q.length = 0

/-- Every reachable state of the blocked-Get scenario satisfies the
inductive invariant. -/
lemma breach_binv {s : BlockingState} (h : BReach s) : BInv s := by
  induction h with
  | init => exact ⟨rfl, rfl, rfl, rfl, rfl⟩
  | @step s t hr hstep ih =>
    obtain ⟨hcap, hql, hhd, htl, hm⟩ := ih
    cases hstep with
    | consWait h he =>
      refine ⟨hcap, hql, hhd, htl, ?_⟩
      rw [h] at hm
      cases hp : s.prod with
      | running => rw [hp] at hm; exact hm
      | waiting => rw [hp] at hm; exact hm
      | finished => rw [hp] at hm; exact hm
    | consTake h q' v hg =>
      rw [h] at hm
      have hne : s.q.length ≠ 0 := by
        intro h0
        rw [get_eq_blocked h0] at hg
        exact absurd hg (by simp)
      have hc0 : s.q.capacity ≠ 0 := by rw [hcap]; exact one_ne_zero
      rw [get_eq_ok hne hc0] at hg
      simp only [Option.some.injEq, Prod.mk.injEq] at hg
      obtain ⟨hq', hv⟩ := hg
      cases hp : s.prod with
      | running => rw [hp] at hm; exact absurd hm hne
      | waiting => rw [hp] at hm; exact absurd hm hne
      | finished =>
        rw [hp] at hm
        obtain ⟨hl1, h42⟩ := hm
        subst hq'
        refine ⟨hcap, hql, ?_, htl, ?_⟩
        · show (s.q.head + 1) % s.q.capacity = 0
          rw [hhd, hcap]
        · refine ⟨hv ▸ h42, ?_⟩
          show s.q.length - 1 = 0
          omega
    | prodWait h hf =>
      rw [h] at hm
      cases hc : s.cons with
      | running => rw [hc] at hm; rw [hcap] at hf; omega
      | waiting => rw [hc] at hm; rw [hcap] at hf; omega
      | finished v => rw [hc] at hm; exact hm.elim
    | prodPut h q' hp =>
      rw [h] at hm
      have hc0 : s.q.capacity ≠ 0 := by rw [hcap]; exact one_ne_zero
      cases hc : s.cons with
      | finished v => rw [hc] at hm; exact hm.elim
      | running =>
        rw [hc] at hm
        have hnf : s.q.length ≠ s.q.capacity := by rw [hm, hcap]; omega
        rw [put_eq_ok 42 hnf hc0] at hp
        simp only [Option.some.injEq] at hp
        subst hp
        refine ⟨hcap, by simpa [enqState] using hql, hhd, ?_, ?_⟩
        · show (s.q.tail + 1) % s.q.capacity = 0
          rw [htl, hcap]
        · refine ⟨?_, ?_⟩
          · show s.q.length + 1 = 1
            omega
          · show (s.q.queue.set s.q.tail 42).getD s.q.head 0 = 42
            rw [htl, hhd]
            have h0 : (0 : Nat) < s.q.queue.length := by omega
            simp [List.getD_eq_getD_get?, List.get?_eq_getElem?,
              List.getElem?_set_eq_of_lt _ h0]
      | waiting =>
        rw [hc] at hm
        have hnf : s.q.length ≠ s.q.capacity := by rw [hm, hcap]; omega
        rw [put_eq_ok 42 hnf hc0] at hp
        simp only [Option.some.injEq] at hp
        subst hp
        refine ⟨hcap, by simpa [enqState] using hql, hhd, ?_, ?_⟩
        · show (s.q.tail + 1) % s.q.capacity = 0
          rw [htl, hcap]
        · refine ⟨?_, ?_⟩
          · show s.q.length + 1 = 1
            omega
          · show (s.q.queue.set s.q.tail 42).getD s.q.head 0 = 42
            rw [htl, hhd]
            have h0 : (0 : Nat) < s.q.queue.length := by omega
            simp [List.getD_eq_getD_get?, List.get?_eq_getElem?,
              List.getElem?_set_eq_of_lt _ h0]
    | consSpurious h =>
      refine ⟨hcap, hql, hhd, htl, ?_⟩
      rw [h] at hm
      cases hp : s.prod with
      | running => rw [hp] at hm; exact hm
      | waiting => rw [hp] at hm; exact hm
      | finished => rw [hp] at hm; exact hm
    | prodSpurious h =>
      refine ⟨hcap, hql, hhd, htl, ?_⟩
      rw [h] at hm
      cases hc : s.cons with
      | running => rw [hc] at hm; exact hm
      | waiting => rw [hc] at hm; exact hm
      | finished v => rw [hc] at hm; exact hm.elim

/-- C5: in the interleaved monitor semantics of the scenario with a
capacity-1 queue, one consumer executing a blocking `Get` and one
producer executing `Put 42` (with wait, signal-one and spurious-wakeup
steps), in every reachable state a consumer that has returned has
returned exactly the value 42, the producer's `Put` has already
completed (so the `Get` issued on the empty queue did not return before
the concurrent `Put` supplied the value), and the value has been
removed from the queue (there is no other consumer in the scenario, so
no one else received it). -/
theorem blocking_get_c5 (s : BlockingState) (h : BReach s) (v : Int)
    (hfin : s.cons = CStat.finished v) :
    v = 42 ∧ s.prod = PStat.finished ∧ s.q.length = 0 := by
  obtain ⟨-, -, -, -, hm⟩ := breach_binv h
  rw [hfin] at hm
  cases hp : s.prod with
  | finished => rw [hp] at hm; exact ⟨hm.1, rfl, hm.2⟩
  | running => rw [hp] at hm; exact hm.elim
  | waiting => rw [hp] at hm; exact hm.elim

/-- C5 witness: the reachable state in which the producer has inserted
42 and the consumer has then taken it. -/
theorem blocking_get_c5_witness :
    (42 : Int) = 42 ∧
    (BlockingState.mk (NativeIntQ.mk [42] 0 0 0 1) (CStat.finished 42)
        PStat.finished).prod = PStat.finished ∧
    (BlockingState.mk (NativeIntQ.mk [42] 0 0 0 1) (CStat.finished 42)
        PStat.finished).q.length = 0 :=
  blocking_get_c5
    (BlockingState.mk (NativeIntQ.mk [42] 0 0 0 1) (CStat.finished 42) PStat.finished)
    (BReach.step
      (BReach.step BReach.init
        (BStep.prodPut initBlocking rfl (NativeIntQ.mk [42] 0 0 1 1) (by decide)))
      (BStep.consTake
        (BlockingState.mk (NativeIntQ.mk [42] 0 0 1 1) CStat.running PStat.finished)
        rfl (NativeIntQ.mk [42] 0 0 0 1) 42 (by decide)))
    42 rfl
